import Mathlib

/-!
Verification of the resolvedvelocities vector-velocity pipeline

Shallow embedding of ResolveVectors.py.  Machine floats are modelled as
rationals; the IEEE NaN that the code uses as a missing-data sentinel is
modelled by Option: none stands for NaN, some x for the finite value x.
Comparisons mirror IEEE semantics: any comparison involving NaN is false.
-/

namespace ResolvedVelocities

/-- NaN-aware strict less-than: a numpy comparison involving NaN is False. -/
def nanLt (a b : Option ℚ) : Bool :=
  match a, b with
  | some x, some y => decide (x < y)
  | _, _ => false

/-- Configuration scalars consumed by ResolveVectors.filter_data (the chirp
offset, the density floor neMin, the altitude window in km, and the four
error-screen parameters, of which the code uses ppp[0], ppp[1], ppp[3]). -/
structure FilterConfig where
  chirp : ℚ
  neMin : ℚ
  minalt : ℚ
  maxalt : ℚ
  p0 : ℚ
  p1 : ℚ
  p3 : ℚ

/-- Nulling through a 2-D boolean mask, the effect of assigning NaN at the
index tuple produced by np.where on a (time x gate)-shaped condition: the
cells where the mask is true become NaN. -/
def nullMask (mask : List (List Bool)) (arr : List (List (Option ℚ))) :
    List (List (Option ℚ)) :=
  List.zipWith
    (fun mrow arow => List.zipWith (fun b x => if b then none else x) mrow arow)
    mask arr

/-- Assigning NaN at a 1-D integer index array applied to a 2-D
(time x gate)-shaped array, as numpy does: the indices select axis 0, so each
listed index nulls one whole time-record row; an index at or beyond the number
of rows raises IndexError, modelled by none. -/
def nullRows (rows : List ℕ) (arr : List (List (Option ℚ))) :
    Option (List (List (Option ℚ))) :=
  if rows.all (fun r => r < arr.length) then
    some ((arr.enum).map
      (fun q => if q.1 ∈ rows then q.2.map (fun _ => none) else q.2))
  else none

/-- The error screen condition for one cell, on the current (chirp-adjusted,
possibly already nulled) values: fractional error abs d / (abs v + p0) above
p1 and absolute error abs d above p3, both false on NaN as in numpy. -/
def errBad (p0 p1 p3 : ℚ) (d v : Option ℚ) : Bool :=
  let fracerr : Option ℚ :=
    match d, v with
    | some dv, some vv => some (|dv| / (|vv| + p0))
    | _, _ => none
  let abserr : Option ℚ := d.map (fun dv => |dv|)
  nanLt (some p1) fracerr && nanLt (some p3) abserr

/-- Embedding of ResolveVectors.filter_data on the full arrays: alt is the 1-D
per-gate altitude (metres), ne/vlos/dvlos are 2-D time x gate arrays (outer
list = time records).  Following the source line by line: add the chirp to
vlos; null per cell where ne < neMin (2-D condition, so np.where gives a
per-cell index pair); for the altitude screen the condition is on the 1-D alt
array, so np.where yields a tuple of one array of GATE indices, and the
assignment vlos[I] = nan applies those indices to AXIS 0 of the 2-D arrays,
nulling whole time-record rows — or raising IndexError (none) when a gate
index reaches the number of time records; finally null per cell where the
fractional error exceeds p1 and the absolute error exceeds p3 (2-D condition
again). -/
def filter_data (cfg : FilterConfig) (alt : List (Option ℚ))
    (ne vlos dvlos : List (List (Option ℚ))) :
    Option (List (List (Option ℚ)) × List (List (Option ℚ))) :=
  let vlos1 := vlos.map (fun row => row.map (Option.map (fun x => x + cfg.chirp)))
  let neMask := ne.map (fun row => row.map (fun x => nanLt x (some cfg.neMin)))
  let vlos2 := nullMask neMask vlos1
  let dvlos2 := nullMask neMask dvlos
  let badGates := (alt.enum).filterMap (fun q =>
    if nanLt q.2 (some (cfg.minalt * 1000)) || nanLt (some (cfg.maxalt * 1000)) q.2
    then some q.1 else none)
  match nullRows badGates vlos2 with
  | none => none
  | some vlos3 =>
    match nullRows badGates dvlos2 with
    | none => none
    | some dvlos3 =>
      let errMask := List.zipWith
        (fun drow vrow => List.zipWith (errBad cfg.p0 cfg.p1 cfg.p3) drow vrow)
        dvlos3 vlos3
      some (nullMask errMask vlos3, nullMask errMask dvlos3)

/-- Claim C4 is a code bug: the claim (and the spec) demand a per-cell
altitude screen — cell (t, g) becomes NaN when gate g lies outside the
altitude window — but the source masks the 1-D per-gate altitude array and
applies the resulting GATE indices to axis 0 of the 2-D time x gate arrays.
First conjunct (2 records, 2 gates, gate 0 below the window, chirp 0, other
screens inert): the code nulls the whole first time-record row, so cell (0,1)
of an in-window gate is lost while cell (1,0) of the out-of-window gate
survives — the claim demands the transpose pattern (gate 0 nulled at both
records, gate 1 kept).  Second conjunct (1 record, 2 gates, gate 1 out of
window): gate index 1 is out of bounds for axis 0 and the code raises
IndexError (none) instead of returning filtered arrays. -/
theorem filter_data_row_null_bug :
    filter_data ⟨0, 0, 100, 500, 1, 10, 100⟩ [some 50000, some 200000]
        [[some 10, some 10], [some 10, some 10]]
        [[some 1, some 2], [some 3, some 4]]
        [[some 1, some 1], [some 1, some 1]]
      = some ([[none, none], [some 3, some 4]],
              [[none, none], [some 1, some 1]]) ∧
    filter_data ⟨0, 0, 100, 500, 1, 10, 100⟩ [some 200000, some 50000]
        [[some 10, some 10]]
        [[some 1, some 2]]
        [[some 1, some 1]]
      = none := by
  constructor
  · decide!
  · decide!

/-! ## vvels: the Heinselman and Nicolls Bayesian reconstruction -/

/-- Matrix inverse as used by np.linalg.inv: raises LinAlgError (modelled by
none) exactly when the matrix is singular, and otherwise returns the inverse
(computed here as the adjugate divided by the determinant). -/
def minv {n : ℕ} (M : Matrix (Fin n) (Fin n) ℚ) : Option (Matrix (Fin n) (Fin n) ℚ) :=
  if M.det = 0 then none else some (M.det⁻¹ • M.adjugate)

/-- One line-of-sight measurement handed to vvels: the (possibly NaN) velocity,
its error, and the row of the geometry matrix A for its gate. -/
structure LosMeas where
  vlos : Option ℚ
  dvlos : ℚ
  kvec : Fin 3 → ℚ

/-- Step 1 of vvels: keep exactly the measurements whose line-of-sight velocity
is finite (the source masks with np.isfinite(vlos)). -/
def vvelsFinite (meas : List LosMeas) : List (ℚ × ℚ × (Fin 3 → ℚ)) :=
  meas.filterMap (fun m => m.vlos.map (fun v => (v, m.dvlos, m.kvec)))

/-- Number of finite measurements, sum(finite) in the source. -/
def vvelsN (meas : List LosMeas) : ℕ := (vvelsFinite meas).length

/-- Finite line-of-sight velocities as a vector. -/
def vvelsVlos (meas : List LosMeas) : Fin (vvelsN meas) → ℚ :=
  fun i => ((vvelsFinite meas).get i).1

/-- Finite line-of-sight errors as a vector. -/
def vvelsDvlos (meas : List LosMeas) : Fin (vvelsN meas) → ℚ :=
  fun i => ((vvelsFinite meas).get i).2.1

/-- Geometry matrix A restricted to the finite measurements. -/
def vvelsA (meas : List LosMeas) : Matrix (Fin (vvelsN meas)) (Fin 3) ℚ :=
  Matrix.of fun i j => ((vvelsFinite meas).get i).2.2 j

/-- Measurement error covariance SigmaE = diagflat(dvlos^2). -/
def vvelsSigmaE (meas : List LosMeas) :
    Matrix (Fin (vvelsN meas)) (Fin (vvelsN meas)) ℚ :=
  Matrix.diagonal (fun i => (vvelsDvlos meas i) ^ 2)

/-- Prior velocity covariance SigmaV = diagflat(cov). -/
def vvelsSigmaV (cov : Fin 3 → ℚ) : Matrix (Fin 3) (Fin 3) ℚ :=
  Matrix.diagonal cov

/-- The matrix A SigmaV A.T + SigmaE inverted first by vvels
(einsum jk,kl,ml->jm of A, SigmaV, A, plus SigmaE). -/
def vvelsM1 (meas : List LosMeas) (cov : Fin 3 → ℚ) :
    Matrix (Fin (vvelsN meas)) (Fin (vvelsN meas)) ℚ :=
  vvelsA meas * vvelsSigmaV cov * (vvelsA meas).transpose + vvelsSigmaE meas

/-- Velocity estimate, einsum jk,lk,lm,m->j of SigmaV, A, I, vlos
(Heinselman 2008 eqn 12), given the inverse I of vvelsM1. -/
def vvelsVest (meas : List LosMeas) (cov : Fin 3 → ℚ)
    (Inv : Matrix (Fin (vvelsN meas)) (Fin (vvelsN meas)) ℚ) : Fin 3 → ℚ :=
  fun j => ∑ k, ∑ l, ∑ m,
    vvelsSigmaV cov j k * vvelsA meas l k * Inv l m * vvelsVlos meas m

/-- Embedding of the vvels function (ResolveVectors.py lines 312-338): mask
non-finite velocities, invert A SigmaV A.T + SigmaE, form the posterior mean
(eqn 12) and the posterior covariance (A.T SigmaE^-1 A + SigmaV^-1)^-1
(eqn 13, einsum kj,kl,lm->jm); any LinAlgError, and likewise fewer finite
points than minnumpoints, yields NaN(3)/NaN(3x3), modelled by none. -/
def vvels (meas : List LosMeas) (cov : Fin 3 → ℚ) (minnumpoints : ℕ) :
    Option ((Fin 3 → ℚ) × Matrix (Fin 3) (Fin 3) ℚ) :=
  let res : Option ((Fin 3 → ℚ) × Matrix (Fin 3) (Fin 3) ℚ) :=
    (minv (vvelsM1 meas cov)).bind (fun Inv =>
      (minv (vvelsSigmaE meas)).bind (fun SEinv =>
        (minv (vvelsSigmaV cov)).bind (fun SVinv =>
          (minv ((vvelsA meas).transpose * SEinv * vvelsA meas + SVinv)).map
            (fun SigV => (vvelsVest meas cov Inv, SigV)))))
  if vvelsN meas < minnumpoints then none else res

/-- Inverting a nonsingular diagonal matrix inverts its diagonal entries. -/
theorem minv_diagonal {k : ℕ} (d : Fin k → ℚ) (h : ∀ i, d i ≠ 0) :
    minv (Matrix.diagonal d) = some (Matrix.diagonal (fun i => (d i)⁻¹)) := by
  have hdet : (Matrix.diagonal d).det = ∏ i, d i := Matrix.det_diagonal
  have hne : (∏ i : Fin k, d i) ≠ 0 :=
    Finset.prod_ne_zero_iff.mpr (fun i _ => h i)
  rw [minv, if_neg (by rw [hdet]; exact hne)]
  congr 1
  rw [hdet, Matrix.adjugate_diagonal]
  ext i j
  rcases eq_or_ne i j with rfl | hij
  · have hP : (∏ j ∈ Finset.univ.erase i, d j) ≠ 0 :=
      Finset.prod_ne_zero_iff.mpr (fun j _ => h j)
    have hsplit : (∏ x : Fin k, d x) = d i * ∏ j ∈ Finset.univ.erase i, d j :=
      (Finset.mul_prod_erase _ _ (Finset.mem_univ i)).symm
    simp only [Matrix.smul_apply, Matrix.diagonal_apply_eq, smul_eq_mul]
    rw [hsplit, mul_inv, mul_assoc, inv_mul_cancel₀ hP, mul_one]
  · simp [Matrix.diagonal_apply_ne _ hij]

/-- Synthetic well-conditioned input of the spec: A the 3x3 identity,
vlos = [1, 0, -1], dvlos = [0.1, 0.1, 0.1]. -/
def measExact : List LosMeas :=
  [⟨some 1, 1/10, fun j => if j = 0 then 1 else 0⟩,
   ⟨some 0, 1/10, fun j => if j = 1 then 1 else 0⟩,
   ⟨some (-1), 1/10, fun j => if j = 2 then 1 else 0⟩]

/-- Weak prior covariance diag([1e6, 1e6, 1e6]). -/
def covExact : Fin 3 → ℚ := fun _ => 1000000

/-- Claim C1: on the synthetic well-conditioned input (A = identity,
vlos = [1,0,-1], dvlos = 0.1, prior diag(1e6)) and any minnumpoints at most 3,
vvels returns the Heinselman and Nicolls posterior: velocity within 1e-6 of
[1, 0, -1] in every component and covariance within 1e-6 of diag(0.01) in
every entry. -/
theorem vvels_heinselman_exact (m : ℕ) (hm : m ≤ 3) :
    ∃ V S, vvels measExact covExact m = some (V, S) ∧
      (∀ i, |V i - ![1, 0, -1] i| ≤ 1 / 1000000) ∧
      (∀ i j, |S i j - Matrix.diagonal (fun _ => (1/100 : ℚ)) i j| ≤ 1 / 1000000) := by
  have e1 : vvelsM1 measExact covExact
      = Matrix.diagonal (fun _ => (100000001/100 : ℚ)) := by decide!
  have i1 : minv (vvelsM1 measExact covExact)
      = some (Matrix.diagonal (fun _ => (100/100000001 : ℚ))) := by
    rw [e1, minv_diagonal _ (fun i => by norm_num)]
    exact congrArg some (congrArg Matrix.diagonal (funext fun i => by norm_num))
  have e2 : vvelsSigmaE measExact = Matrix.diagonal (fun _ => (1/100 : ℚ)) := by
    decide!
  have i2 : minv (vvelsSigmaE measExact)
      = some (Matrix.diagonal (fun _ => (100 : ℚ))) := by
    rw [e2, minv_diagonal _ (fun i => by norm_num)]
    exact congrArg some (congrArg Matrix.diagonal (funext fun i => by norm_num))
  have i3 : minv (vvelsSigmaV covExact)
      = some (Matrix.diagonal (fun _ => (1/1000000 : ℚ))) := by
    rw [vvelsSigmaV, minv_diagonal _ (fun i => by norm_num [covExact])]
    exact congrArg some (congrArg Matrix.diagonal
      (funext fun i => by norm_num [covExact]))
  have e4 : (vvelsA measExact).transpose * Matrix.diagonal (fun _ => (100 : ℚ)) *
        vvelsA measExact + Matrix.diagonal (fun _ => (1/1000000 : ℚ))
      = Matrix.diagonal (fun _ => (100000001/1000000 : ℚ)) := by decide!
  have i4 : minv ((vvelsA measExact).transpose * Matrix.diagonal (fun _ => (100 : ℚ)) *
        vvelsA measExact + Matrix.diagonal (fun _ => (1/1000000 : ℚ)))
      = some (Matrix.diagonal (fun _ => (1000000/100000001 : ℚ))) := by
    rw [e4, minv_diagonal _ (fun i => by norm_num)]
    exact congrArg some (congrArg Matrix.diagonal (funext fun i => by norm_num))
  have hN : ¬ (vvelsN measExact < m) := by
    have h3 : vvelsN measExact = 3 := rfl
    omega
  have hv : vvels measExact covExact m
      = some (vvelsVest measExact covExact
          (Matrix.diagonal (fun _ => (100/100000001 : ℚ))),
        Matrix.diagonal (fun _ => (1000000/100000001 : ℚ))) := by
    unfold vvels
    simp only [i1, i2, i3, Option.some_bind]
    simp only [i4, Option.map_some']
    rw [if_neg hN]
  have e5 : vvelsVest measExact covExact
        (Matrix.diagonal (fun _ => (100/100000001 : ℚ)))
      = ![100000000/100000001, 0, -(100000000/100000001)] := by decide!
  refine ⟨_, _, hv, ?_, ?_⟩
  · rw [e5]
    decide!
  · decide!

/-- Witness for claim C1: the theorem applied at minnumpoints = 3. -/
theorem vvels_heinselman_exact_witness :
    ∃ V S, vvels measExact covExact 3 = some (V, S) ∧
      (∀ i, |V i - ![1, 0, -1] i| ≤ 1 / 1000000) ∧
      (∀ i j, |S i j - Matrix.diagonal (fun _ => (1/100 : ℚ)) i j| ≤ 1 / 1000000) :=
  vvels_heinselman_exact 3 (by norm_num)

/-- A single measurement whose k-vector points along the first axis: the
geometry matrix restricted to finite measurements is 1 x 3, of rank 1 < 3,
with positive error and a well-posed prior. -/
def measRankDef : List LosMeas := [⟨some 1, 1, fun j => if j = 0 then 1 else 0⟩]

/-- Unit prior covariance. -/
def covUnit : Fin 3 → ℚ := fun _ => 1

/-- Counterexample to claim C2: a rank-deficient geometry (all k-vectors
parallel) with positive measurement error and a nonsingular prior does NOT
make vvels return NaN: every matrix that vvels actually inverts is positive
definite, so the function returns a finite, prior-dominated estimate. -/
theorem vvels_rank_deficient_counterexample :
    (vvelsA measRankDef).rank < 3 ∧ vvels measRankDef covUnit 1 ≠ none := by
  constructor
  · have h1 : (vvelsA measRankDef).rank ≤ Fintype.card (Fin (vvelsN measRankDef)) :=
      Matrix.rank_le_card_height _
    have h2 : Fintype.card (Fin (vvelsN measRankDef)) = 1 := by
      rw [Fintype.card_fin]
      rfl
    omega
  · have e1 : vvelsM1 measRankDef covUnit
        = Matrix.diagonal (fun _ => (2 : ℚ)) := by decide!
    have i1 : minv (vvelsM1 measRankDef covUnit)
        = some (Matrix.diagonal (fun _ => (1/2 : ℚ))) := by
      rw [e1, minv_diagonal _ (fun i => by norm_num)]
      exact congrArg some (congrArg Matrix.diagonal (funext fun i => by norm_num))
    have e2 : vvelsSigmaE measRankDef = Matrix.diagonal (fun _ => (1 : ℚ)) := by
      decide!
    have i2 : minv (vvelsSigmaE measRankDef)
        = some (Matrix.diagonal (fun _ => (1 : ℚ))) := by
      rw [e2, minv_diagonal _ (fun i => by norm_num)]
      exact congrArg some (congrArg Matrix.diagonal (funext fun i => by norm_num))
    have i3 : minv (vvelsSigmaV covUnit)
        = some (Matrix.diagonal (fun _ => (1 : ℚ))) := by
      rw [vvelsSigmaV, minv_diagonal _ (fun i => by norm_num [covUnit])]
      exact congrArg some (congrArg Matrix.diagonal
        (funext fun i => by norm_num [covUnit]))
    have e4 : (vvelsA measRankDef).transpose * Matrix.diagonal (fun _ => (1 : ℚ)) *
          vvelsA measRankDef + Matrix.diagonal (fun _ => (1 : ℚ))
        = Matrix.diagonal (fun i : Fin 3 => if i = 0 then (2 : ℚ) else 1) := by
      decide!
    have i4 : minv ((vvelsA measRankDef).transpose * Matrix.diagonal (fun _ => (1 : ℚ)) *
          vvelsA measRankDef + Matrix.diagonal (fun _ => (1 : ℚ)))
        = some (Matrix.diagonal (fun i : Fin 3 => if i = 0 then (1/2 : ℚ) else 1)) := by
      rw [e4, minv_diagonal _ (fun i => by rcases eq_or_ne i 0 with h | h <;> norm_num [h])]
      exact congrArg some (congrArg Matrix.diagonal
        (funext fun i => by rcases eq_or_ne i 0 with h | h <;> norm_num [h]))
    have hv : vvels measRankDef covUnit 1
        = some (vvelsVest measRankDef covUnit
            (Matrix.diagonal (fun _ => (1/2 : ℚ))),
          Matrix.diagonal (fun i : Fin 3 => if i = 0 then (1/2 : ℚ) else 1)) := by
      unfold vvels
      simp only [i1, i2, i3, Option.some_bind]
      simp only [i4, Option.map_some']
      rw [if_neg (by decide)]
    simp [hv]

/-- Claim C2 amended: vvels returns NaN(3)/NaN(3x3), without raising, whenever
a matrix it actually inverts is singular, here the first one,
A SigmaV A.T + SigmaE; rank deficiency of A alone does not force NaN. -/
theorem vvels_singular_nan (meas : List LosMeas) (cov : Fin 3 → ℚ) (minn : ℕ)
    (h : (vvelsM1 meas cov).det = 0) : vvels meas cov minn = none := by
  have hm : minv (vvelsM1 meas cov) = none := by rw [minv, if_pos h]
  simp only [vvels, hm, Option.none_bind]
  exact ite_self none

/-- A single measurement with zero error and zero k-vector: the matrix
A SigmaV A.T + SigmaE is the 1 x 1 zero matrix, which is singular. -/
def measSingular : List LosMeas := [⟨some 1, 0, fun _ => 0⟩]

/-- Witness for the amended claim C2: on the singular input, vvels returns the
NaN result (none) instead of raising. -/
theorem vvels_singular_nan_witness : vvels measSingular covUnit 1 = none :=
  vvels_singular_nan measSingular covUnit 1 (by
    have e : vvelsM1 measSingular covUnit = Matrix.diagonal (fun _ => (0 : ℚ)) := by
      decide!
    rw [e, Matrix.det_diagonal]
    exact Finset.prod_eq_zero (Finset.mem_univ ⟨0, by decide⟩) rfl)

/-- Claim C3: whenever the number of measurements with finite line-of-sight
velocity is strictly below minnumpoints, vvels returns the NaN result (none),
as a normal value and not an exception, regardless of the matrices involved. -/
theorem vvels_minnumpoints_nan (meas : List LosMeas) (cov : Fin 3 → ℚ)
    (minn : ℕ) (h : vvelsN meas < minn) : vvels meas cov minn = none := by
  simp only [vvels]
  rw [if_pos h]

/-- Witness for claim C3: one finite measurement with invertible matrices and
minnumpoints = 2 still yields the NaN result. -/
theorem vvels_minnumpoints_nan_witness : vvels measRankDef covUnit 2 = none :=
  vvels_minnumpoints_nan measRankDef covUnit 2 (by decide)

/-! ## get_integration_periods -/

/-- Loop of ResolveVectors.get_integration_periods when an integration time T
is configured: walk the (start, end) unix-time pairs, appending each record
index to the open window; close the window, emitting its (window start,
latest end) and its index list, once latest end minus window start reaches T
or the final record is reached.  The ℕ argument is the index of the current
record, the Option ℚ the start time of the open window (None in the source),
and the List ℕ the indices accumulated so far. -/
def get_integration_periods_go (T : ℚ) :
    ℕ → Option ℚ → List ℕ → List (ℚ × ℚ) → List ((ℚ × ℚ) × List ℕ)
  | _, _, _, [] => []
  | i, startTime, idx, (ts, te) :: rest =>
    let st := startTime.getD ts
    let idx2 := idx ++ [i]
    if T ≤ te - st ∨ rest = [] then
      ((st, te), idx2) :: get_integration_periods_go T (i + 1) none [] rest
    else
      get_integration_periods_go T (i + 1) (some st) idx2 rest

/-- Embedding of ResolveVectors.get_integration_periods with a configured
integration time T: the produced windows with their record-index lists. -/
def get_integration_periods (T : ℚ) (times : List (ℚ × ℚ)) :
    List ((ℚ × ℚ) × List ℕ) :=
  get_integration_periods_go T 0 none [] times

theorem get_integration_periods_go_flatten (T : ℚ) (times : List (ℚ × ℚ)) :
    ∀ (i : ℕ) (st : Option ℚ) (idx : List ℕ),
      ((get_integration_periods_go T i st idx times).map (fun w => w.2)).flatten
        = if times = [] then [] else idx ++ List.range' i times.length := by
  induction times with
  | nil => intro i st idx; simp [get_integration_periods_go]
  | cons p rest ih =>
    intro i st idx
    obtain ⟨ts, te⟩ := p
    simp only [get_integration_periods_go]
    by_cases hc : T ≤ te - (st.getD ts) ∨ rest = []
    · rw [if_pos hc]
      simp only [List.map_cons, List.flatten_cons, ih (i + 1) none []]
      cases rest with
      | nil => simp [List.range'_succ]
      | cons q qs => simp [List.range'_succ]
    · rw [if_neg hc]
      push_neg at hc
      rw [ih (i + 1) (some (st.getD ts)) (idx ++ [i]), if_neg hc.2,
        if_neg (List.cons_ne_nil _ _)]
      simp [List.range'_succ]

theorem get_integration_periods_go_ne_nil (T : ℚ) (times : List (ℚ × ℚ)) :
    ∀ (i : ℕ) (st : Option ℚ) (idx : List ℕ), times ≠ [] →
      get_integration_periods_go T i st idx times ≠ [] := by
  induction times with
  | nil => intro i st idx h; exact absurd rfl h
  | cons p rest ih =>
    intro i st idx _
    obtain ⟨ts, te⟩ := p
    simp only [get_integration_periods_go]
    by_cases hc : T ≤ te - (st.getD ts) ∨ rest = []
    · rw [if_pos hc]; exact List.cons_ne_nil _ _
    · rw [if_neg hc]
      push_neg at hc
      exact ih (i + 1) (some (st.getD ts)) (idx ++ [i]) hc.2

theorem get_integration_periods_go_durations (T : ℚ) (times : List (ℚ × ℚ)) :
    ∀ (i : ℕ) (st : Option ℚ) (idx : List ℕ),
      ∀ w ∈ (get_integration_periods_go T i st idx times).dropLast,
        T ≤ w.1.2 - w.1.1 := by
  induction times with
  | nil => intro i st idx w hw; simp [get_integration_periods_go] at hw
  | cons p rest ih =>
    intro i st idx w hw
    obtain ⟨ts, te⟩ := p
    simp only [get_integration_periods_go] at hw
    cases rest with
    | nil =>
        rw [if_pos (Or.inr rfl)] at hw
        simp [get_integration_periods_go] at hw
    | cons q qs =>
        by_cases hT : T ≤ te - (st.getD ts)
        · rw [if_pos (Or.inl hT)] at hw
          have hne : get_integration_periods_go T (i + 1) none [] (q :: qs) ≠ [] :=
            get_integration_periods_go_ne_nil T (q :: qs) (i + 1) none []
              (List.cons_ne_nil _ _)
          rw [List.dropLast_cons_of_ne_nil hne, List.mem_cons] at hw
          rcases hw with rfl | hw
          · exact hT
          · exact ih (i + 1) none [] w hw
        · have hc : ¬ (T ≤ te - (st.getD ts) ∨ (q :: qs : List (ℚ × ℚ)) = []) := by
            rintro (h | h)
            · exact hT h
            · exact List.noConfusion h
          rw [if_neg hc] at hw
          exact ih (i + 1) (some (st.getD ts)) (idx ++ [i]) w hw

/-- Claim C5: with an integration time configured, the record-index lists of
the produced windows, concatenated in order, are exactly the full original
index range 0, 1, ..., N-1 (each original record in exactly one window, no
duplicates, windows contiguous in time order), and every window except
possibly the last has duration (end of its last record minus start of its
first record) at least the configured integration time. -/
theorem get_integration_periods_spec (T : ℚ) (times : List (ℚ × ℚ)) :
    ((get_integration_periods T times).map (fun w => w.2)).flatten
        = List.range times.length ∧
    ∀ w ∈ (get_integration_periods T times).dropLast, T ≤ w.1.2 - w.1.1 := by
  constructor
  · rw [get_integration_periods, get_integration_periods_go_flatten]
    cases times with
    | nil => simp
    | cons p rest => simp [List.range_eq_range']
  · exact fun w hw => get_integration_periods_go_durations T times 0 none [] w hw

/-! ## Electric field derivation (compute_vectors, lines 233-243) -/

/-- Rotation matrix R = Be3 * [[0,-1,0],[1,0,0],[0,0,0]] formed per bin in
compute_vectors (einsum i,jk->ijk of Be3 and the fixed matrix). -/
def rotE (Be3 : ℚ) : Matrix (Fin 3) (Fin 3) ℚ :=
  Be3 • Matrix.of ![![0, -1, 0], ![1, 0, 0], ![0, 0, 0]]

/-- Electric field E = R V for one bin (einsum ijk,...ik->...ij). -/
def electricField (Be3 : ℚ) (V : Fin 3 → ℚ) : Fin 3 → ℚ :=
  fun j => ∑ k, rotE Be3 j k * V k

/-- Electric field covariance R SigmaV R.T for one bin
(einsum ijk,...ikl,iml->...ijm). -/
def electricFieldCov (Be3 : ℚ) (S : Matrix (Fin 3) (Fin 3) ℚ) :
    Matrix (Fin 3) (Fin 3) ℚ :=
  Matrix.of fun i j => ∑ k, ∑ l, rotE Be3 i k * S k l * rotE Be3 j l

/-- Claim C8: the derived electric field is (-Be3 Ve2, Be3 Ve1, 0) — so Ed1
depends only on Ve2, Ed2 only on Ve1 and Ed3 vanishes — its covariance equals
R SigmaV R.T as matrices, and for unit field magnitude and zero velocity the
field is exactly zero. -/
theorem electricField_spec (Be3 : ℚ) (V : Fin 3 → ℚ)
    (S : Matrix (Fin 3) (Fin 3) ℚ) :
    electricField Be3 V = ![-(Be3 * V 1), Be3 * V 0, 0] ∧
    electricFieldCov Be3 S = rotE Be3 * S * (rotE Be3).transpose ∧
    electricField 1 (fun _ => 0) = fun _ => 0 := by
  refine ⟨?_, ?_, ?_⟩
  · funext j
    fin_cases j <;>
      simp [electricField, rotE, Fin.sum_univ_three]
  · ext i j
    simp only [electricFieldCov, Matrix.of_apply, Matrix.mul_apply,
      Matrix.transpose_apply, Fin.sum_univ_three]
    ring
  · funext j
    fin_cases j <;> simp [electricField, rotE, Fin.sum_univ_three]

/-! ## compute_vectors gathering (lines 205-220) -/

/-- numpy fancy indexing vlos[tidx, bidx[:, np.newaxis]] followed by flatten:
broadcasting the (T,)-shaped index array tidx against the (B,1)-shaped index
array bidx[:, None] yields a (B,T) array whose [b,t] entry is
vlos[tidx[t], bidx[b]]; row-major flatten then lists, gate by gate, all
selected time records of that gate (gate-major order). -/
def np_fancy_flatten (vlos : ℕ → ℕ → Option ℚ) (tidx bidx : List ℕ) :
    List (Option ℚ) :=
  (bidx.map (fun b => tidx.map (fun t => vlos t b))).flatten

/-- np.repeat(rows, T, axis=0): every row duplicated T times in place. -/
def np_repeat_rows {β : Type} (rows : List β) (T : ℕ) : List β :=
  (rows.map (fun r => List.replicate T r)).flatten

theorem zip_map_replicate {α β γ : Type} (l : List α) (f : α → β) (c : γ) :
    (l.map f).zip (List.replicate l.length c) = l.map (fun t => (f t, c)) := by
  induction l with
  | nil => rfl
  | cons a l ih => simp [List.replicate_succ, ih]

/-- Claim C9: for a bin with gates bidx and an integration period with time
records tidx, the flattened measurement list is gate-major, and pairing it
elementwise with np.repeat of the bin rows of A by len(tidx) pairs every
measurement with the k-vector row of its own gate. -/
theorem compute_vectors_pairing (vlos : ℕ → ℕ → Option ℚ) (A : ℕ → Fin 3 → ℚ)
    (tidx bidx : List ℕ) :
    (np_fancy_flatten vlos tidx bidx).zip
        (np_repeat_rows (bidx.map A) tidx.length)
      = (bidx.map (fun b => tidx.map (fun t => (vlos t b, A b)))).flatten := by
  induction bidx with
  | nil => rfl
  | cons b bs ih =>
      simp only [np_fancy_flatten, np_repeat_rows, List.map_cons,
        List.flatten_cons] at ih ⊢
      rw [List.zip_append (by simp), ih, zip_map_replicate]

/-! ## transform (lines 98-131): strip NaN gates, apply the geomagnetic model,
reinsert NaN rows -/

/-- np.argwhere(np.isnan(alt)).flatten() generalized over the start index of
the enumeration: the indices (counted from n) of the NaN (none) gates. -/
def argwhereNoneFrom {α : Type} (n : ℕ) (pos : List (Option α)) : List ℕ :=
  (pos.enumFrom n).filterMap (fun q => if q.2.isNone then some q.1 else none)

/-- The insertion positions computed in transform:
[r - i for i, r in enumerate(argwhere(isnan(alt)))]. -/
def replace_nans {α : Type} (pos : List (Option α)) : List ℕ :=
  (argwhereNoneFrom 0 pos).enum.map (fun q => q.2 - q.1)

/-- Loop of np.insert for a sorted index array: the k-th index i (k counted
from the ℕ argument) refers to the original array, so the value is inserted
at position i + k of the evolving array. -/
def npInsertAux {β : Type} (v : β) : List β → List ℕ → ℕ → List β
  | acc, [], _ => acc
  | acc, i :: is, k => npInsertAux v (acc.insertIdx (i + k) v) is (k + 1)

/-- np.insert(xs, idxs, v) for a sorted index array idxs. -/
def np_insert {β : Type} (xs : List β) (idxs : List ℕ) (v : β) : List β :=
  npInsertAux v xs idxs 0

/-- Embedding of ResolveVectors.transform for one model-derived quantity
(mlat, mlon, or one basis-vector component): strip the NaN-positioned gates,
apply the geomagnetic model only to the finite ones, then reinsert NaN rows
at the positions replace_nans, exactly as np.insert does in the source. -/
def transform {α β : Type} (model : α → β) (pos : List (Option α)) :
    List (Option β) :=
  np_insert (((pos.filterMap id).map model).map some) (replace_nans pos) none

theorem enumFrom_map_val {α β : Type} (f : α → β) (l : List α) :
    ∀ n : ℕ, (l.map f).enumFrom n = (l.enumFrom n).map (fun q => (q.1, f q.2)) := by
  induction l with
  | nil => intro n; rfl
  | cons a l ih => intro n; simp [ih]

theorem argwhereNoneFrom_cons_some {α : Type} (n : ℕ) (a : α)
    (pos : List (Option α)) :
    argwhereNoneFrom n (some a :: pos) = argwhereNoneFrom (n + 1) pos := by
  simp [argwhereNoneFrom]

theorem argwhereNoneFrom_cons_none {α : Type} (n : ℕ) (pos : List (Option α)) :
    argwhereNoneFrom n (none :: pos) = n :: argwhereNoneFrom (n + 1) pos := by
  simp [argwhereNoneFrom]

theorem argwhereNoneFrom_succ {α : Type} (pos : List (Option α)) : ∀ n : ℕ,
    argwhereNoneFrom (n + 1) pos = (argwhereNoneFrom n pos).map (· + 1) := by
  induction pos with
  | nil => intro n; rfl
  | cons a pos ih =>
      intro n
      cases a with
      | none =>
          rw [argwhereNoneFrom_cons_none, argwhereNoneFrom_cons_none, ih (n + 1),
            List.map_cons]
      | some a =>
          rw [argwhereNoneFrom_cons_some, argwhereNoneFrom_cons_some, ih (n + 1)]

theorem argwhereNoneFrom_enum_le {α : Type} (pos : List (Option α)) : ∀ n : ℕ,
    ∀ q ∈ (argwhereNoneFrom n pos).enum, n + q.1 ≤ q.2 := by
  induction pos with
  | nil => intro n q hq; simp [argwhereNoneFrom] at hq
  | cons a pos ih =>
      intro n q hq
      cases a with
      | some a =>
          rw [argwhereNoneFrom_cons_some, argwhereNoneFrom_succ,
            List.enum_eq_enumFrom, enumFrom_map_val] at hq
          rw [← List.enum_eq_enumFrom] at hq
          obtain ⟨p, hp, rfl⟩ := List.mem_map.mp hq
          have := ih n p hp
          omega
      | none =>
          rw [argwhereNoneFrom_cons_none, List.enum_cons'] at hq
          rcases List.mem_cons.mp hq with rfl | hq
          · omega
          · obtain ⟨p, hp, rfl⟩ := List.mem_map.mp hq
            rw [argwhereNoneFrom_succ] at hp
            rw [List.enum_eq_enumFrom, enumFrom_map_val, ← List.enum_eq_enumFrom]
              at hp
            obtain ⟨p2, hp2, rfl⟩ := List.mem_map.mp hp
            have := ih n p2 hp2
            simp [Prod.map] at *
            omega

theorem replace_nans_cons_some {α : Type} (a : α) (pos : List (Option α)) :
    replace_nans (some a :: pos) = (replace_nans pos).map (· + 1) := by
  rw [replace_nans, argwhereNoneFrom_cons_some, argwhereNoneFrom_succ,
    List.enum_eq_enumFrom, enumFrom_map_val, ← List.enum_eq_enumFrom,
    List.map_map, replace_nans, List.map_map]
  refine List.map_congr_left (fun q hq => ?_)
  have := argwhereNoneFrom_enum_le pos 0 q hq
  simp only [Function.comp_apply]
  omega

theorem replace_nans_cons_none {α : Type} (pos : List (Option α)) :
    replace_nans (none :: pos) = 0 :: replace_nans pos := by
  rw [replace_nans, argwhereNoneFrom_cons_none, List.enum_cons',
    argwhereNoneFrom_succ, List.map_cons]
  refine congrArg (List.cons 0) ?_
  rw [List.enum_eq_enumFrom, enumFrom_map_val, ← List.enum_eq_enumFrom,
    List.map_map, List.map_map, replace_nans]
  refine List.map_congr_left (fun q hq => ?_)
  simp [Prod.map]

theorem npInsertAux_map_add_one {β : Type} (v y : β) (idxs : List ℕ) :
    ∀ (k : ℕ) (ys : List β),
      npInsertAux v (y :: ys) (idxs.map (· + 1)) k = y :: npInsertAux v ys idxs k := by
  induction idxs with
  | nil => intro k ys; rfl
  | cons i is ih =>
      intro k ys
      show npInsertAux v ((y :: ys).insertIdx (i + 1 + k) v) (is.map (· + 1)) (k + 1)
        = y :: npInsertAux v (ys.insertIdx (i + k) v) is (k + 1)
      rw [show i + 1 + k = (i + k) + 1 by omega, List.insertIdx_succ_cons]
      exact ih (k + 1) (ys.insertIdx (i + k) v)

theorem npInsertAux_succ_k {β : Type} (v y : β) (idxs : List ℕ) :
    ∀ (k : ℕ) (ys : List β),
      npInsertAux v (y :: ys) idxs (k + 1) = y :: npInsertAux v ys idxs k := by
  induction idxs with
  | nil => intro k ys; rfl
  | cons i is ih =>
      intro k ys
      show npInsertAux v ((y :: ys).insertIdx (i + (k + 1)) v) is (k + 2)
        = y :: npInsertAux v (ys.insertIdx (i + k) v) is (k + 1)
      rw [show i + (k + 1) = (i + k) + 1 by omega, List.insertIdx_succ_cons]
      exact ih (k + 1) (ys.insertIdx (i + k) v)

theorem npInsertAux_zero_cons {β : Type} (v : β) (ys : List β) (is : List ℕ) :
    npInsertAux v ys (0 :: is) 0 = v :: npInsertAux v ys is 0 := by
  show npInsertAux v (ys.insertIdx 0 v) is 1 = v :: npInsertAux v ys is 0
  rw [List.insertIdx_zero]
  exact npInsertAux_succ_k v v is 0 ys

/-- Claim C6: transform returns a list of the same length as the input, whose
entry at every original index is NaN exactly when the position of that gate
was non-finite and is the model value of the position of that gate otherwise — it
equals mapping the model over the gates NaN-preservingly, the model being
invoked only on the finite gates, and no failure is raised (the function is
total). -/
theorem transform_spec {α β : Type} (model : α → β) (pos : List (Option α)) :
    transform model pos = pos.map (Option.map model) ∧
    (transform model pos).length = pos.length ∧
    ∀ i : ℕ, (transform model pos)[i]? = pos[i]?.map (Option.map model) := by
  have main : transform model pos = pos.map (Option.map model) := by
    induction pos with
    | nil => rfl
    | cons a pos ih =>
        cases a with
        | some a =>
            have hfm : List.filterMap id (some a :: pos) = a :: List.filterMap id pos := by
              simp
            rw [transform, replace_nans_cons_some, hfm, List.map_cons,
              List.map_cons, np_insert, npInsertAux_map_add_one]
            exact congrArg _ ih
        | none =>
            have hfm : List.filterMap id ((none : Option α) :: pos)
                = List.filterMap id pos := by simp
            rw [transform, replace_nans_cons_none, hfm, np_insert,
              npInsertAux_zero_cons]
            exact congrArg _ ih
  refine ⟨main, ?_, ?_⟩
  · rw [main, List.length_map]
  · intro i
    rw [main, List.getElem?_map]

/-! ## lin_interp (lines 341-358) and ion_outflow_correction (lines 135-145) -/

/-- np.nanmin of a finite nonempty altitude list (0 for the empty list, on
which the source errors upstream). -/
def nanmin (xp : List ℚ) : ℚ :=
  match xp with
  | [] => 0
  | x :: t => t.foldl min x

/-- np.nanmax of a finite nonempty altitude list. -/
def nanmax (xp : List ℚ) : ℚ :=
  match xp with
  | [] => 0
  | x :: t => t.foldl max x

/-- argwhere((xi >= xp[:-1]) and (xi < xp[1:])).flatten()[0]: the first index j
with xp[j] <= xi < xp[j+1]; none models the IndexError the source raises when
the in-range test passed but no consecutive pair brackets xi (possible only
for a non-monotone xp). -/
def bracket (xp : List ℚ) (xi : ℚ) : Option ℕ :=
  (List.range (xp.length - 1)).find?
    (fun j => decide (xp.getD j 0 ≤ xi) && decide (xi < xp.getD (j + 1) 0))

/-- Embedding of lin_interp for a single target altitude xi: the outer none is
the IndexError path; otherwise the pair (interpolated value, interpolation
error) with none for NaN.  Rationals have no square root, so the error slot
carries the radicand (1-X)^2 dfp[j]^2 + X^2 dfp[j+1]^2, whose NaN pattern
equals that of its square root, and the claims below concern only the NaN
pattern.  Out-of-range targets get the placeholder index -1 in the source and
are overwritten with NaN at the end: here they yield (none, none) directly. -/
def lin_interp (xp fp dfp : List ℚ) (xi : ℚ) :
    Option (Option ℚ × Option ℚ) :=
  if nanmin xp ≤ xi ∧ xi < nanmax xp then
    match bracket xp xi with
    | none => none
    | some j =>
      let X := (xi - xp.getD j 0) / (xp.getD (j + 1) 0 - xp.getD j 0)
      let f := fp.getD j 0 + (fp.getD (j + 1) 0 - fp.getD j 0) * X
      let dfsq := (1 - X) ^ 2 * (dfp.getD j 0) ^ 2
        + X ^ 2 * (dfp.getD (j + 1) 0) ^ 2
      some (some f, some dfsq)
  else some (none, none)

/-- One point of ion_outflow_correction: corrected velocity
vlos + D * A[:,2] * vion, and corrected error (squared, see lin_interp)
dvlos^2 + D^2 * A[:,2]^2 * dvion^2, NaN-propagating as numpy arithmetic. -/
def ion_outflow_correction (D A2 : ℚ) (vlos dvlos vion dvion : Option ℚ) :
    Option ℚ × Option ℚ :=
  (match vlos, vion with
   | some v, some vi => some (v + D * A2 * vi)
   | _, _ => none,
   match dvlos, dvion with
   | some dv, some dvi => some (dv ^ 2 + D ^ 2 * A2 ^ 2 * dvi ^ 2)
   | _, _ => none)

/-- Claim C7: a target altitude strictly outside the up-B altitude range gets
NaN for the interpolated value and its error — as a returned value, not an
exception — and the outflow correction then turns the corrected velocity and
error at that point into NaN, whatever the original measurement was. -/
theorem lin_interp_out_of_range (xp fp dfp : List ℚ) (xi : ℚ)
    (h : xi < nanmin xp ∨ nanmax xp < xi) :
    lin_interp xp fp dfp xi = some (none, none) ∧
    ∀ D A2 vlos dvlos,
      ion_outflow_correction D A2 vlos dvlos none none = (none, none) := by
  constructor
  · rw [lin_interp, if_neg]
    rintro ⟨h1, h2⟩
    rcases h with h | h
    · exact absurd h1 (not_le.mpr h)
    · exact absurd h (not_lt.mpr (le_of_lt h2))
  · intro D A2 vlos dvlos
    cases vlos <;> cases dvlos <;> rfl

/-- Witness for claim C7: the target 3 lies above the up-B range [1, 2]. -/
theorem lin_interp_out_of_range_witness :
    lin_interp [1, 2] [0, 0] [0, 0] 3 = some (none, none) ∧
    ∀ D A2 vlos dvlos,
      ion_outflow_correction D A2 vlos dvlos none none = (none, none) :=
  lin_interp_out_of_range [1, 2] [0, 0] [0, 0] 3 (Or.inr (by decide!))

theorem foldl_min_le (t : List ℚ) : ∀ x : ℚ, t.foldl min x ≤ x := by
  induction t with
  | nil => intro x; exact le_refl x
  | cons a t ih => intro x; exact le_trans (ih (min x a)) (min_le_left x a)

theorem foldl_min_eq_of_le (t : List ℚ) :
    ∀ x : ℚ, (∀ y ∈ t, x ≤ y) → t.foldl min x = x := by
  induction t with
  | nil => intro x _; rfl
  | cons a t ih =>
      intro x hx
      have hxa : min x a = x := min_eq_left (hx a (List.mem_cons_self a t))
      show t.foldl min (min x a) = x
      rw [hxa]
      exact ih x (fun y hy => hx y (List.mem_cons_of_mem a hy))

theorem nanmax_cons_cons (x0 x1 : ℚ) (t : List ℚ) (h : x0 ≤ x1) :
    nanmax (x0 :: x1 :: t) = nanmax (x1 :: t) := by
  show (x1 :: t).foldl max x0 = t.foldl max x1
  show t.foldl max (max x0 x1) = t.foldl max x1
  rw [max_eq_right h]

theorem bracket_exists (xp : List ℚ) (hsort : xp.Chain' (· < ·)) (xi : ℚ)
    (h1 : nanmin xp ≤ xi) (h2 : xi < nanmax xp) :
    ∃ j, j + 1 < xp.length ∧ xp.getD j 0 ≤ xi ∧ xi < xp.getD (j + 1) 0 := by
  induction xp with
  | nil =>
      have hc := lt_of_le_of_lt h1 h2
      norm_num [nanmin, nanmax] at hc
  | cons x0 rest ih =>
      cases rest with
      | nil =>
          have hmin : nanmin [x0] = x0 := rfl
          have hmax : nanmax [x0] = x0 := rfl
          rw [hmin] at h1
          rw [hmax] at h2
          exact absurd (lt_of_le_of_lt h1 h2) (lt_irrefl x0)
      | cons x1 t =>
          have h01 : x0 < x1 := (List.chain'_cons.mp hsort).1
          by_cases hx : xi < x1
          · refine ⟨0, by simp, ?_, hx⟩
            have hpw := (List.chain'_iff_pairwise.mp hsort)
            have hall : ∀ y ∈ x1 :: t, x0 ≤ y :=
              fun y hy => le_of_lt ((List.pairwise_cons.mp hpw).1 y hy)
            have : nanmin (x0 :: x1 :: t) = x0 := foldl_min_eq_of_le _ _ hall
            rw [this] at h1
            exact h1
          · push_neg at hx
            have hsort2 : (x1 :: t).Chain' (· < ·) := (List.chain'_cons.mp hsort).2
            have h1' : nanmin (x1 :: t) ≤ xi :=
              le_trans (foldl_min_le t x1) hx
            have h2' : xi < nanmax (x1 :: t) := by
              rw [nanmax_cons_cons x0 x1 t (le_of_lt h01)] at h2
              exact h2
            obtain ⟨j, hjl, hj1, hj2⟩ := ih hsort2 h1' h2'
            exact ⟨j + 1, by simpa using hjl, by simpa using hj1, by simpa using hj2⟩

/-- Claim C10: for a strictly increasing up-B altitude list with at least two
entries, the interpolation domain is the half-open interval
[nanmin xp, nanmax xp): a target exactly equal to the maximum altitude gets
NaN value and NaN error even though it lies inside the closed altitude range,
while every target inside the half-open interval gets a finite value and
error. -/
theorem lin_interp_half_open (xp fp dfp : List ℚ) (hlen : 2 ≤ xp.length)
    (hsort : xp.Chain' (· < ·)) :
    lin_interp xp fp dfp (nanmax xp) = some (none, none) ∧
    ∀ xi, nanmin xp ≤ xi → xi < nanmax xp →
      ∃ f df, lin_interp xp fp dfp xi = some (some f, some df) := by
  constructor
  · rw [lin_interp, if_neg]
    rintro ⟨h1, h2⟩
    exact lt_irrefl _ h2
  · intro xi hge hlt
    obtain ⟨j, hjl, hj1, hj2⟩ := bracket_exists xp hsort xi hge hlt
    have hfind : (bracket xp xi).isSome := by
      rw [bracket, List.find?_isSome]
      refine ⟨j, List.mem_range.mpr (by omega), ?_⟩
      simp only [List.getD_eq_getElem?_getD] at hj1 hj2
      simp [hj1, hj2]
    obtain ⟨j2, hb⟩ := Option.isSome_iff_exists.mp hfind
    have hres : lin_interp xp fp dfp xi =
        some (some (fp.getD j2 0 + (fp.getD (j2 + 1) 0 - fp.getD j2 0) *
            ((xi - xp.getD j2 0) / (xp.getD (j2 + 1) 0 - xp.getD j2 0))),
          some ((1 - (xi - xp.getD j2 0) / (xp.getD (j2 + 1) 0 - xp.getD j2 0)) ^ 2
              * (dfp.getD j2 0) ^ 2
            + ((xi - xp.getD j2 0) / (xp.getD (j2 + 1) 0 - xp.getD j2 0)) ^ 2
              * (dfp.getD (j2 + 1) 0) ^ 2)) := by
      rw [lin_interp, if_pos (And.intro hge hlt), hb]
    exact ⟨_, _, hres⟩

/-- Witness for claim C10: the strictly increasing up-B altitudes [1, 2],
evaluated at their maximum and at an interior point via the theorem. -/
theorem lin_interp_half_open_witness :
    lin_interp [1, 2] [5, 7] [1, 1] (nanmax [1, 2]) = some (none, none) ∧
    ∀ xi, nanmin [1, 2] ≤ xi → xi < nanmax [1, 2] →
      ∃ f df, lin_interp [1, 2] [5, 7] [1, 1] xi = some (some f, some df) :=
  lin_interp_half_open [1, 2] [5, 7] [1, 1] (by decide)
    (by norm_num [List.chain'_cons, List.chain'_singleton])

end ResolvedVelocities
